import Mathlib

/-!
Shallow embedding of `src/main.rs` of the thelio-io-windows fan-control
service, together with theorems settling the specification claims.

The embedding models:
* `f64` values as an inductive `FVal` (finite rationals, the two
  infinities, and NaN), with `fpcmp` embedding `f64::partial_cmp`;
* the `iter().max_by(|a, b| a.partial_cmp(b).unwrap()).unwrap()`
  expression of line 77 as `smoothMax`, where `none` models a panic;
* `str::parse::<f64>` (after `trim`) as `parseF64`, following the grammar
  accepted by Rust's `f64: FromStr`;
* the poor-man's ring buffer of lines 54-75 as `BufState` / `pushTemp`;
* one iteration of the `loop` of lines 58-93 as `cycleBody`, with the
  external world (pipe writes/reads, device-write successes) supplied as a
  `CycleInput`, and finitely many iterations as `runLoop`;
* the startup sequence of `driver` (lines 96-178) as `driverStart` over a
  `StartEnv`, recording externally visible effects in order.
-/

/-- Embedding of an `f64` value: a finite rational, one of the two
infinities, or NaN.  Finite values are exact rationals; the claims under
study depend only on parse success/failure, NaN-ness and order, never on
rounding. -/
inductive FVal where
  | num (q : ℚ)
  | posInf
  | negInf
  | nan
deriving DecidableEq, Repr

/-- Embedding of `f64::partial_cmp`: `none` exactly when one side is NaN. -/
def fpcmp : FVal → FVal → Option Ordering
  | .nan, _ => none
  | _, .nan => none
  | .num a, .num b =>
      if a < b then some .lt else if a = b then some .eq else some .gt
  | .num _, .posInf => some .lt
  | .num _, .negInf => some .gt
  | .posInf, .posInf => some .eq
  | .posInf, _ => some .gt
  | .negInf, .negInf => some .eq
  | .negInf, _ => some .lt

/-- Fold of `Iterator::max_by` with comparator
`|a, b| a.partial_cmp(b).unwrap()`: each element is compared against the
accumulated maximum; `none` models the `unwrap` panic on an incomparable
(NaN) pair. -/
def maxByGo : FVal → List FVal → Option FVal
  | acc, [] => some acc
  | acc, x :: xs =>
      match fpcmp x acc with
      | none => none
      | some .lt => maxByGo acc xs
      | some _ => maxByGo x xs

/-- Embedding of line 77,
`recent_temps.iter().max_by(|a, b| a.partial_cmp(b).unwrap()).unwrap()`:
`none` models a panic (empty iterator, or a NaN comparison). -/
def smoothMax : List FVal → Option FVal
  | [] => none
  | x :: xs => maxByGo x xs

/-- `POLLING_DELAY` (line 41) in seconds. -/
def pollingDelaySecs : ℚ := 1

/-- `SPIN_DOWN_DELAY` (line 43) in seconds. -/
def spinDownDelaySecs : ℚ := 3

/-- Ceiling of the exact quotient `a / b` of two rationals with positive
numerator and denominator, computed on numerators and denominators:
`⌈n / d⌉ = ⌊(n + d - 1) / d⌋` for integers with `d > 0`. -/
def ratCeilDiv (a b : ℚ) : Int :=
  Int.fdiv (a.num * (b.den : Int) + (a.den : Int) * b.num - 1) ((a.den : Int) * b.num)

/-- `points_in_spin_down` (line 54):
`(SPIN_DOWN_DELAY.as_secs_f32() / POLLING_DELAY.as_secs_f32()).ceil() as usize`.
Both durations are exactly representable, so the `f32` arithmetic is exact
and the value is the ceiling of the exact quotient. -/
def pointsInSpinDown : Nat := (ratCeilDiv spinDownDelaySecs pollingDelaySecs).toNat

/-- State of the poor-man's ring buffer: `recent_temps` and
`recent_temps_i` (lines 55-56). -/
structure BufState where
  buf : List FVal
  idx : Nat
deriving DecidableEq, Repr

/-- Initial buffer: `vec![0.0; points_in_spin_down]` with index `0`. -/
def initBuf : BufState :=
  ⟨List.replicate pointsInSpinDown (.num 0), 0⟩

/-- Lines 74-75: store the sample at the cursor, advance the cursor modulo
the capacity. -/
def pushTemp (v : FVal) (st : BufState) : BufState :=
  ⟨st.buf.set st.idx v, (st.idx + 1) % pointsInSpinDown⟩

/-- Push a whole list of samples, oldest first. -/
def pushAll (vs : List FVal) (st : BufState) : BufState :=
  vs.foldl (fun s v => pushTemp v s) st

/-- Truncation toward zero, the rounding used by Rust's float-to-integer
`as` casts. -/
def ratTruncate (q : ℚ) : Int := if 0 ≤ q then ⌊q⌋ else ⌈q⌉

/-- Embedding of `as i16` on an `f64`: saturating truncation, NaN to 0. -/
def f64AsI16 : FVal → Int
  | .num q => max (-32768) (min 32767 (ratTruncate q))
  | .posInf => 32767
  | .negInf => -32768
  | .nan => 0

/-- Multiplication by `100.0` (line 79); infinities and NaN are absorbed. -/
def mul100 : FVal → FVal
  | .num q => .num (q * 100)
  | v => v

/-- Longest digit prefix of a character list, plus the remainder. -/
def spanDigits : List Char → List Char × List Char
  | [] => ([], [])
  | c :: cs =>
      if c.isDigit then
        let (ds, rest) := spanDigits cs
        (c :: ds, rest)
      else ([], c :: cs)

/-- Numeric value of a digit string. -/
def digitsToNat (ds : List Char) : Nat :=
  ds.foldl (fun n c => 10 * n + (c.toNat - 48)) 0

/-- Strip one optional leading sign; returns (isNegative, remainder). -/
def stripSign : List Char → Bool × List Char
  | '+' :: t => (false, t)
  | '-' :: t => (true, t)
  | t => (false, t)

/-- Optional exponent suffix of the `f64` grammar: empty, or
`(e|E) sign? digit+` consuming the whole remainder. -/
def parseExp : List Char → Option Int
  | [] => some 0
  | c :: cs =>
      if c = 'e' ∨ c = 'E' then
        let (neg, cs2) := stripSign cs
        let (ds, rest) := spanDigits cs2
        if ds = [] ∨ rest ≠ [] then none
        else some (if neg then -(digitsToNat ds : Int) else (digitsToNat ds : Int))
      else none

/-- Value of mantissa and exponent. -/
def applyExp (q : ℚ) (e : Int) : ℚ := q * (10 : ℚ) ^ e

/-- Unsigned-number part of the `f64` grammar:
`digit+ '.'? digit* exp?  |  '.' digit+ exp?`. -/
def parseNumber (cs : List Char) : Option ℚ :=
  let (ints, r1) := spanDigits cs
  match r1 with
  | '.' :: t =>
      let (fracs, r2) := spanDigits t
      if ints = [] ∧ fracs = [] then none
      else
        (parseExp r2).map fun e =>
          applyExp ((digitsToNat ints : ℚ)
            + (digitsToNat fracs : ℚ) / (10 : ℚ) ^ fracs.length) e
  | _ =>
      if ints = [] then none
      else (parseExp r1).map fun e => applyExp (digitsToNat ints : ℚ) e

/-- Embedding of `str::trim` (line 67): drop leading and trailing
whitespace. -/
def trimChars (cs : List Char) : List Char :=
  ((cs.dropWhile Char.isWhitespace).reverse.dropWhile Char.isWhitespace).reverse

/-- Embedding of `str::parse::<f64>` (line 67), on the character list of
the input: optional sign, then the case-insensitive specials `inf`,
`infinity`, `nan`, or a decimal number with optional fraction and
exponent. -/
def parseF64 (cs : List Char) : Option FVal :=
  match stripSign cs with
  | (neg, body) =>
      if body = [] then none
      else
        let low := body.map Char.toLower
        if low = "inf".data ∨ low = "infinity".data then
          some (if neg then .negInf else .posInf)
        else if low = "nan".data then some .nan
        else (parseNumber body).map fun q => .num (if neg then -q else q)

/-- Spec-side predicate, used to state C7: a plain ASCII decimal number,
`digit+` optionally followed by `'.' digit+` (a "decimal number, possibly
with fractional part"). -/
def isDecimalLine (cs : List Char) : Bool :=
  match spanDigits cs with
  | (ds, []) => decide (ds ≠ [])
  | (ds, '.' :: t) =>
      match spanDigits t with
      | (fs, []) => decide (ds ≠ [] ∧ fs ≠ [])
      | _ => false
  | _ => false

/-- Modelled from the spec: `FanCurve::get_duty` of the external
`thelio_io` crate (its source is not part of this repository).  Per §4.1:
below the first breakpoint return `none`; otherwise return the duty of the
highest breakpoint not exceeding the temperature (a step function).  The
scan keeps the last breakpoint whose threshold is at most the input. -/
def getDuty (ps : List (Int × Int)) (x : Int) : Option Int :=
  ps.foldl (fun acc p => if p.1 ≤ x then some p.2 else acc) none

/-- The fixed channel list of line 81, `&["CPUF", "INTF"]`. -/
def channels : List String := ["CPUF", "INTF"]

/-- One device write: (device index, channel name, duty value). -/
abbrev WriteEv := Nat × String × Int

/-- Errors the loop can return (all become `io::Error` in the source). -/
inductive LoopErr where
  | ioTrigger
  | ioRead
  | invalidData
  | deviceErr
deriving DecidableEq, Repr

/-- External events consumed by one loop iteration: whether the pipe write
of line 60 succeeds, the result of the `read_line` of line 62 (`none` is
an I/O error), and whether each `set_duty` call succeeds. -/
structure CycleInput where
  trigger : Bool
  readLine : Option String
  writeOk : Nat → String → Bool

/-- Static configuration of the loop: the selected fan-curve breakpoint
table and the number of discovered devices. -/
structure LoopCfg where
  curve : List (Int × Int)
  nDevs : Nat

/-- Inner channel loop of lines 81-88 for one device. -/
def applyChans (ok : Nat → String → Bool) (d : Nat) (duty : Int) :
    List String → List WriteEv × Bool
  | [] => ([], true)
  | c :: cs =>
      if ok d c then
        let (ws, r) := applyChans ok d duty cs
        ((d, c, duty) :: ws, r)
      else ([], false)

/-- Outer device loop of lines 80-89. -/
def applyDevs (ok : Nat → String → Bool) (duty : Int) :
    List Nat → List WriteEv × Bool
  | [] => ([], true)
  | d :: ds =>
      match applyChans ok d duty channels with
      | (ws, true) =>
          let (ws2, r) := applyDevs ok duty ds
          (ws ++ ws2, r)
      | (ws, false) => (ws, false)

/-- Actuation of lines 80-89: the same duty to every channel of every
device, devices outer, channels inner, stopping at the first failure. -/
def applyAll (ok : Nat → String → Bool) (n : Nat) (duty : Int) :
    List WriteEv × Bool :=
  applyDevs ok duty (List.range n)

/-- The full intended write sequence of one actuation. -/
def writeSeq (n : Nat) (duty : Int) : List WriteEv :=
  (List.range n).flatMap fun d => channels.map fun c => (d, c, duty)

/-- Result of one loop iteration.  `retOk` mirrors the `Ok(())` value the
function's `io::Result<()>` type permits; `panicked` models an aborting
panic (not a returned error). -/
inductive CycleResult where
  | next (st : BufState) (writes : List WriteEv)
  | retErr (e : LoopErr) (writes : List WriteEv)
  | retOk (writes : List WriteEv)
  | panicked (writes : List WriteEv)
deriving DecidableEq, Repr

/-- Lines 77-90, run on the buffer state `st'` that already holds the new
sample: compute the smoothed maximum (panicking on NaN), look up the duty,
and actuate if a duty was returned. -/
def afterPush (cfg : LoopCfg) (oracle : Nat → String → Bool) (st' : BufState) : CycleResult :=
  match smoothMax st'.buf with
  | none => .panicked []
  | some temp =>
      match getDuty cfg.curve (f64AsI16 (mul100 temp)) with
      | none => .next st' []
      | some duty =>
          match applyAll oracle cfg.nDevs duty with
          | (ws, true) => .next st' ws
          | (ws, false) => .retErr .deviceErr ws

/-- One iteration of the `loop` of lines 58-93. -/
def cycleBody (cfg : LoopCfg) (inp : CycleInput) (st : BufState) : CycleResult :=
  if inp.trigger = false then .retErr .ioTrigger []
  else
    match inp.readLine with
    | none => .retErr .ioRead []
    | some line =>
        match parseF64 (trimChars line.data) with
        | none => .retErr .invalidData []
        | some v => afterPush cfg inp.writeOk (pushTemp v st)

/-- Outcome of finitely many loop iterations: still running (the inputs
were exhausted), a returned error, a returned `Ok(())`, or a panic. -/
inductive LoopOutcome where
  | running (st : BufState)
  | returned (e : LoopErr)
  | retUnit
  | panicked
deriving DecidableEq, Repr

/-- Run the loop on a finite list of per-cycle inputs, accumulating the
device writes issued in order. -/
def runLoop (cfg : LoopCfg) : List CycleInput → BufState → List WriteEv × LoopOutcome
  | [], st => ([], .running st)
  | inp :: rest, st =>
      match cycleBody cfg inp st with
      | .next st' ws => (ws ++ (runLoop cfg rest st').1, (runLoop cfg rest st').2)
      | .retErr e ws => (ws, .returned e)
      | .retOk ws => (ws, .retUnit)
      | .panicked ws => (ws, .panicked)

/-- The four curve constructors selected by `driver` (lines 107-133); the
breakpoint tables themselves live in the external `thelio_io` crate. -/
inductive CurveKind where
  | standardSmooth
  | threadripper2
  | hedt
  | xeon
deriving DecidableEq, Repr

/-- The `match (sys_vendor.as_str(), product_version.as_str())` of lines
107-133: the registered fan curve for a (vendor, version) pair, `none` for
the catch-all unsupported arm. -/
def curveForModel (vendor version : String) : Option CurveKind :=
  match vendor, version with
  | "System76", "thelio-mira-r1" | "System76", "thelio-mira-r2" =>
      some .standardSmooth
  | "System76", "thelio-major-r1" => some .threadripper2
  | "System76", "thelio-major-r2" | "System76", "thelio-major-r2.1"
  | "System76", "thelio-major-b1" | "System76", "thelio-major-b2"
  | "System76", "thelio-major-b3" | "System76", "thelio-mega-r1"
  | "System76", "thelio-mega-r1.1" => some .hedt
  | "System76", "thelio-massive-b1" => some .xeon
  | _, _ => none

/-- USB identification of a serial port. -/
structure UsbInfo where
  vid : Nat
  pid : Nat
deriving DecidableEq, Repr

/-- Port type as reported by `serialport::available_ports`. -/
inductive PortType where
  | usbPort (u : UsbInfo)
  | other
deriving DecidableEq, Repr

/-- One discovered serial port, with the outcomes of the effectful calls
`open` and `Io::reset` the startup code would make on it. -/
structure PortInfo where
  portName : String
  portType : PortType
  openOk : Bool
  resetOk : Bool
deriving DecidableEq, Repr

/-- Externally visible startup effects, in program order. -/
inductive StartEffect where
  | scanPorts
  | openPort (name : String)
  | resetDevice (name : String)
  | spawnWrapper
  | enterLoop
deriving DecidableEq, Repr

/-- Startup errors of `driver` (lines 96-178). -/
inductive StartErr where
  | smbiosErr
  | unsupportedHardware (vendor version : String)
  | portScanErr
  | openErr
  | resetErr
  | noDevices
  | exePathErr
  | spawnErr
deriving DecidableEq, Repr

/-- Environment for one run of `driver`: SMBIOS table availability and
contents, the port list (`none` models `available_ports()` failing), and
the outcomes of `current_exe` and the wrapper spawn. -/
structure StartEnv where
  smbiosOk : Bool
  vendor : Option String
  version : Option String
  ports : Option (List PortInfo)
  exePathOk : Bool
  spawnOk : Bool

/-- Discovery loop of lines 136-156: for each USB port with the Thelio Io
vid/pid, open it and reset the device, stopping at the first failure;
returns the names of the devices collected into `ios`. -/
def discoverPorts : List PortInfo → List StartEffect × Except StartErr (List String)
  | [] => ([], .ok [])
  | p :: rest =>
      match p.portType with
      | .usbPort u =>
          if u.vid = 0x1209 ∧ u.pid = 0x1776 then
            if p.openOk then
              if p.resetOk then
                let (es, r) := discoverPorts rest
                (StartEffect.openPort p.portName :: StartEffect.resetDevice p.portName :: es,
                  r.map (p.portName :: ·))
              else
                ([StartEffect.openPort p.portName, StartEffect.resetDevice p.portName],
                  .error .resetErr)
            else ([StartEffect.openPort p.portName], .error .openErr)
          else discoverPorts rest
      | .other => discoverPorts rest

/-- Startup sequence of `driver` (lines 96-178) up to entering
`driver_loop` (modelled separately by `runLoop`): SMBIOS load, hardware
classification, port scan and device discovery, wrapper spawn.  The
returned effect list records what was attempted, in order. -/
def driverStart (env : StartEnv) : List StartEffect × Except StartErr Unit :=
  if env.smbiosOk = false then ([], .error .smbiosErr)
  else
    let sysVendor := env.vendor.getD ""
    let productVersion := env.version.getD ""
    match curveForModel sysVendor productVersion with
    | none => ([], .error (.unsupportedHardware sysVendor productVersion))
    | some _ =>
        match env.ports with
        | none => ([.scanPorts], .error .portScanErr)
        | some ps =>
            match discoverPorts ps with
            | (es, .error e) => (StartEffect.scanPorts :: es, .error e)
            | (es, .ok names) =>
                if names.isEmpty then
                  (StartEffect.scanPorts :: es, .error .noDevices)
                else if env.exePathOk = false then
                  (StartEffect.scanPorts :: es, .error .exePathErr)
                else if env.spawnOk = false then
                  (StartEffect.scanPorts :: es ++ [StartEffect.spawnWrapper], .error .spawnErr)
                else
                  (StartEffect.scanPorts :: es ++ [StartEffect.spawnWrapper, StartEffect.enterLoop],
                    .ok ())

/-! ### Basic facts about the buffer and the loop step -/

theorem points_eq : pointsInSpinDown = 3 := by decide

theorem pushTemp_buf_length (v : FVal) (st : BufState) :
    (pushTemp v st).buf.length = st.buf.length := by
  simp [pushTemp]

theorem pushTemp_idx_lt (v : FVal) (st : BufState) :
    (pushTemp v st).idx < pointsInSpinDown := by
  simp only [pushTemp]
  exact Nat.mod_lt _ (by rw [points_eq]; omega)

/-- The post-push step either continues with the unchanged pushed state,
returns an error, or panics; when it continues, the state is passed
through. -/
theorem afterPush_next_eq {cfg : LoopCfg} {oracle : Nat → String → Bool}
    {st' st'' : BufState} {ws : List WriteEv}
    (h : afterPush cfg oracle st' = .next st'' ws) : st'' = st' := by
  unfold afterPush at h
  split at h
  · simp at h
  · split at h
    · cases h; rfl
    · split at h
      · cases h; rfl
      · simp at h

theorem cycleBody_next_shape {cfg : LoopCfg} {inp : CycleInput} {st st' : BufState}
    {ws : List WriteEv} (h : cycleBody cfg inp st = .next st' ws) :
    ∃ v, st' = pushTemp v st := by
  unfold cycleBody at h
  split at h
  · simp at h
  · split at h
    · simp at h
    · split at h
      · simp at h
      · rename_i v _
        exact ⟨v, (afterPush_next_eq h).symm ▸ rfl⟩

/-- The post-push step never produces `retOk`. -/
theorem afterPush_never_retOk (cfg : LoopCfg) (oracle : Nat → String → Bool)
    (st' : BufState) (ws : List WriteEv) : afterPush cfg oracle st' ≠ .retOk ws := by
  intro h
  unfold afterPush at h
  split at h
  · simp at h
  · split at h
    · simp at h
    · split at h
      · simp at h
      · simp at h

/-- The loop body never produces the `Ok(())` value that its result type
would permit. -/
theorem cycleBody_never_retOk (cfg : LoopCfg) (inp : CycleInput) (st : BufState)
    (ws : List WriteEv) : cycleBody cfg inp st ≠ .retOk ws := by
  intro h
  unfold cycleBody at h
  split at h
  · simp at h
  · split at h
    · simp at h
    · split at h
      · simp at h
      · exact afterPush_never_retOk _ _ _ _ h

theorem runLoop_nil (cfg : LoopCfg) (st : BufState) :
    runLoop cfg [] st = ([], .running st) := rfl

theorem runLoop_cons (cfg : LoopCfg) (inp : CycleInput) (rest : List CycleInput)
    (st : BufState) :
    runLoop cfg (inp :: rest) st =
      match cycleBody cfg inp st with
      | .next st' ws => (ws ++ (runLoop cfg rest st').1, (runLoop cfg rest st').2)
      | .retErr e ws => (ws, .returned e)
      | .retOk ws => (ws, .retUnit)
      | .panicked ws => (ws, .panicked) := rfl

/-- Composition of runs: if the first batch of inputs leaves the loop
running, appending more inputs continues from the reached state, with the
write traces concatenated. -/
theorem runLoop_append_running {cfg : LoopCfg} {l₁ : List CycleInput}
    {st st' : BufState} {w : List WriteEv} (l₂ : List CycleInput)
    (h : runLoop cfg l₁ st = (w, .running st')) :
    runLoop cfg (l₁ ++ l₂) st
      = (w ++ (runLoop cfg l₂ st').1, (runLoop cfg l₂ st').2) := by
  induction l₁ generalizing st w with
  | nil =>
      rw [runLoop_nil] at h
      cases h
      simp
  | cons inp rest ih =>
      rw [List.cons_append, runLoop_cons]
      rw [runLoop_cons] at h
      cases hcb : cycleBody cfg inp st with
      | next st1 ws =>
          simp only [hcb] at h ⊢
          rw [Prod.mk.injEq] at h
          obtain ⟨h1, h2⟩ := h
          have hr : runLoop cfg rest st1 = ((runLoop cfg rest st1).1, .running st') := by
            rw [← h2]
          rw [ih hr, ← h1]
          simp
      | retErr e ws => simp only [hcb] at h; simp at h
      | retOk ws => simp only [hcb] at h; simp at h
      | panicked ws => simp only [hcb] at h; simp at h

theorem cycleBody_trigger_fail {cfg : LoopCfg} {inp : CycleInput} (st : BufState)
    (h : inp.trigger = false) : cycleBody cfg inp st = .retErr .ioTrigger [] := by
  simp [cycleBody, h]

theorem cycleBody_read_fail {cfg : LoopCfg} {inp : CycleInput} (st : BufState)
    (ht : inp.trigger = true) (h : inp.readLine = none) :
    cycleBody cfg inp st = .retErr .ioRead [] := by
  simp [cycleBody, ht, h]

theorem cycleBody_parse_fail {cfg : LoopCfg} {inp : CycleInput} {line : String}
    (st : BufState) (ht : inp.trigger = true) (hl : inp.readLine = some line)
    (hp : parseF64 (trimChars line.data) = none) :
    cycleBody cfg inp st = .retErr .invalidData [] := by
  simp [cycleBody, ht, hl, hp]

/-- A cycle whose body returns an error with no writes ends the whole run
right there: the final trace is exactly the writes of the earlier cycles
and the outcome is the returned error, whatever inputs would have
followed. -/
theorem runLoop_stops_at_error {cfg : LoopCfg} {pre : List CycleInput}
    {st0 st : BufState} {w : List WriteEv} {inp : CycleInput} {e : LoopErr}
    (rest : List CycleInput)
    (hpre : runLoop cfg pre st0 = (w, .running st))
    (hbad : cycleBody cfg inp st = .retErr e []) :
    runLoop cfg (pre ++ inp :: rest) st0 = (w, .returned e) := by
  rw [runLoop_append_running (inp :: rest) hpre, runLoop_cons]
  simp only [hbad]
  simp

/-- Preservation of the buffer shape by any number of loop iterations that
leave the loop running. -/
theorem runLoop_preserves_shape {cfg : LoopCfg} {ins : List CycleInput} :
    ∀ {st st' : BufState}, st.idx < pointsInSpinDown →
      st.buf.length = pointsInSpinDown →
      (runLoop cfg ins st).2 = .running st' →
      st'.idx < pointsInSpinDown ∧ st'.buf.length = pointsInSpinDown := by
  induction ins with
  | nil =>
      intro st st' hidx hlen h
      rw [runLoop_nil] at h
      cases h
      exact ⟨hidx, hlen⟩
  | cons inp rest ih =>
      intro st st' hidx hlen h
      rw [runLoop_cons] at h
      cases hcb : cycleBody cfg inp st with
      | next st1 ws =>
          simp only [hcb] at h
          obtain ⟨v, rfl⟩ := cycleBody_next_shape hcb
          exact ih (pushTemp_idx_lt v st) ((pushTemp_buf_length v st).trans hlen) h
      | retErr e ws => simp only [hcb] at h; simp at h
      | retOk ws => simp only [hcb] at h; simp at h
      | panicked ws => simp only [hcb] at h; simp at h

/-- C6: the smoothing buffer is constructed with capacity exactly
`ceil(spin_down_window / poll_interval)` = 3, all slots zero and cursor 0;
each push advances the cursor modulo the capacity keeping it strictly
below the capacity and never changes the buffer's length, and these
invariants are preserved by every run of the loop. -/
theorem c6_buffer_structural_invariant :
    (pointsInSpinDown = 3
      ∧ initBuf.buf = List.replicate pointsInSpinDown (.num 0)
      ∧ initBuf.idx = 0)
    ∧ (∀ (v : FVal) (st : BufState),
        (pushTemp v st).idx = (st.idx + 1) % pointsInSpinDown
        ∧ (pushTemp v st).idx < pointsInSpinDown
        ∧ (pushTemp v st).buf.length = st.buf.length)
    ∧ (∀ (cfg : LoopCfg) (ins : List CycleInput) (st st' : BufState),
        st.idx < pointsInSpinDown → st.buf.length = pointsInSpinDown →
        (runLoop cfg ins st).2 = .running st' →
        st'.idx < pointsInSpinDown ∧ st'.buf.length = pointsInSpinDown) := by
  refine ⟨⟨points_eq, rfl, rfl⟩, fun v st => ⟨rfl, pushTemp_idx_lt v st, pushTemp_buf_length v st⟩,
    fun cfg ins st st' hidx hlen h => runLoop_preserves_shape hidx hlen h⟩

theorem c6_buffer_structural_invariant_witness :
    (pushTemp .posInf initBuf).idx < pointsInSpinDown
      ∧ (pushTemp .posInf initBuf).buf.length = pointsInSpinDown :=
  c6_buffer_structural_invariant.2.2 ⟨[], 0⟩ [⟨true, some "inf", fun _ _ => true⟩]
    initBuf (pushTemp .posInf initBuf) (by decide) (by decide) (by decide)

/-- C10: the control loop never terminates voluntarily: no iteration of
the loop body produces the `Ok(())` value its result type would allow, so
every finite run either is still running or ended with a propagated error
or a panic — never a voluntary return. -/
theorem c10_loop_never_returns_ok :
    (∀ (cfg : LoopCfg) (inp : CycleInput) (st : BufState) (ws : List WriteEv),
        cycleBody cfg inp st ≠ .retOk ws)
    ∧ (∀ (cfg : LoopCfg) (ins : List CycleInput) (st : BufState),
        (runLoop cfg ins st).2 ≠ .retUnit) := by
  refine ⟨cycleBody_never_retOk, fun cfg ins => ?_⟩
  induction ins with
  | nil => intro st h; rw [runLoop_nil] at h; cases h
  | cons inp rest ih =>
      intro st
      rw [runLoop_cons]
      cases hcb : cycleBody cfg inp st with
      | next st1 ws => simpa using ih st1
      | retErr e ws => simp
      | retOk ws => exact absurd hcb (cycleBody_never_retOk cfg inp st ws)
      | panicked ws => simp

/-- C5: in a cycle where the curve lookup on the smoothed temperature
returns `none`, no device write is issued, the smoothing buffer still
receives the new sample, and the loop continues to the next cycle. -/
theorem c5_below_curve_skips_actuation {cfg : LoopCfg} {inp : CycleInput}
    {st : BufState} {line : String} {v temp : FVal}
    (ht : inp.trigger = true) (hl : inp.readLine = some line)
    (hp : parseF64 (trimChars line.data) = some v)
    (hm : smoothMax (pushTemp v st).buf = some temp)
    (hd : getDuty cfg.curve (f64AsI16 (mul100 temp)) = none) :
    cycleBody cfg inp st = .next (pushTemp v st) []
    ∧ ∀ rest : List CycleInput,
        runLoop cfg (inp :: rest) st
          = ((runLoop cfg rest (pushTemp v st)).1, (runLoop cfg rest (pushTemp v st)).2) := by
  have hbody : cycleBody cfg inp st = .next (pushTemp v st) [] := by
    simp [cycleBody, ht, hl, hp, afterPush, hm, hd]
  refine ⟨hbody, fun rest => ?_⟩
  rw [runLoop_cons]
  simp [hbody]

theorem c5_below_curve_skips_actuation_witness :
    cycleBody ⟨[(32768, 20)], 1⟩ ⟨true, some "inf", fun _ _ => true⟩ initBuf
      = .next (pushTemp .posInf initBuf) [] :=
  (@c5_below_curve_skips_actuation ⟨[(32768, 20)], 1⟩ ⟨true, some "inf", fun _ _ => true⟩
    initBuf "inf" .posInf .posInf (by decide) (by decide) (by decide) (by decide)
    (by decide)).1

/-- C3: any failure while triggering or reading a temperature sample
(I/O error on the pipe write, I/O error on the line read, or a parse
error) ends the run at that cycle: the loop returns the corresponding
error and the accumulated device-write trace is exactly that of the
preceding cycles, whatever inputs would have followed. -/
theorem c3_sample_failure_is_fatal {cfg : LoopCfg} {pre : List CycleInput}
    {st0 st : BufState} {w : List WriteEv} (rest : List CycleInput)
    (hpre : runLoop cfg pre st0 = (w, .running st)) :
    (∀ inp : CycleInput, inp.trigger = true → inp.readLine = none →
        runLoop cfg (pre ++ inp :: rest) st0 = (w, .returned .ioRead))
    ∧ (∀ inp : CycleInput, inp.trigger = false →
        runLoop cfg (pre ++ inp :: rest) st0 = (w, .returned .ioTrigger))
    ∧ (∀ (inp : CycleInput) (line : String), inp.trigger = true →
        inp.readLine = some line → parseF64 (trimChars line.data) = none →
        runLoop cfg (pre ++ inp :: rest) st0 = (w, .returned .invalidData)) := by
  refine ⟨fun inp ht hr => ?_, fun inp ht => ?_, fun inp line ht hl hp => ?_⟩
  · exact runLoop_stops_at_error rest hpre (cycleBody_read_fail st ht hr)
  · exact runLoop_stops_at_error rest hpre (cycleBody_trigger_fail st ht)
  · exact runLoop_stops_at_error rest hpre (cycleBody_parse_fail st ht hl hp)

theorem c3_sample_failure_is_fatal_witness :
    runLoop ⟨[(0, 20)], 1⟩
        ([⟨true, some "inf", fun _ _ => true⟩]
          ++ ⟨true, none, fun _ _ => true⟩ :: [⟨true, some "inf", fun _ _ => true⟩])
        initBuf
      = ([(0, "CPUF", 20), (0, "INTF", 20)], .returned .ioRead) :=
  (@c3_sample_failure_is_fatal ⟨[(0, 20)], 1⟩ [⟨true, some "inf", fun _ _ => true⟩]
    initBuf (pushTemp .posInf initBuf) [(0, "CPUF", 20), (0, "INTF", 20)]
    [⟨true, some "inf", fun _ _ => true⟩]
    (by decide)).1 ⟨true, none, fun _ _ => true⟩ (by decide) (by decide)

theorem takeWhile_eq_self_of_all {p : α → Bool} {l : List α} (h : ∀ a ∈ l, p a) :
    l.takeWhile p = l := by
  have := @List.takeWhile_append_of_pos _ p l [] h
  simpa using this

theorem applyChans_eq (ok : Nat → String → Bool) (d : Nat) (duty : Int)
    (cs : List String) :
    applyChans ok d duty cs
      = ((cs.map fun c => (d, c, duty)).takeWhile (fun e => ok e.1 e.2.1),
         cs.all (ok d)) := by
  induction cs with
  | nil => simp [applyChans]
  | cons c cs ih =>
      by_cases h : ok d c
      · simp [applyChans, h, ih, List.takeWhile_cons]
      · simp [applyChans, h, List.takeWhile_cons]

theorem applyDevs_eq (ok : Nat → String → Bool) (duty : Int) (ds : List Nat) :
    applyDevs ok duty ds
      = ((ds.flatMap fun d => channels.map fun c => (d, c, duty)).takeWhile
            (fun e => ok e.1 e.2.1),
         ds.all fun d => channels.all (ok d)) := by
  induction ds with
  | nil => simp [applyDevs]
  | cons d ds ih =>
      rw [List.flatMap_cons]
      cases hall : channels.all (ok d) with
      | true =>
          have hblock : ∀ e ∈ channels.map fun c => (d, c, duty), ok e.1 e.2.1 := by
            intro e he
            obtain ⟨c, hc, rfl⟩ := List.mem_map.1 he
            exact (List.all_eq_true.1 hall) c hc
          have htw := takeWhile_eq_self_of_all hblock
          rw [List.takeWhile_append_of_pos hblock]
          simp only [applyDevs, applyChans_eq, htw, hall, ih, List.all_cons, Bool.true_and]
      | false =>
          have hblock : ¬ ((channels.map fun c => (d, c, duty)).takeWhile
              (fun e => ok e.1 e.2.1)).length = (channels.map fun c => (d, c, duty)).length := by
            intro hlen
            have hself : ((channels.map fun c => (d, c, duty)).takeWhile
                (fun e => ok e.1 e.2.1)).Sublist (channels.map fun c => (d, c, duty)) :=
              List.takeWhile_sublist _
            have heq := List.Sublist.eq_of_length hself hlen
            obtain ⟨c, hc, hnc⟩ : ∃ c ∈ channels, ¬ ok d c := by
              by_contra hfa
              push_neg at hfa
              rw [List.all_eq_true.2 (fun c hc => (hfa c hc))] at hall
              cases hall
            have : (d, c, duty) ∈ (channels.map fun c => (d, c, duty)).takeWhile
                (fun e => ok e.1 e.2.1) := by
              rw [heq]
              exact List.mem_map.2 ⟨c, hc, rfl⟩
            have := List.mem_takeWhile_imp this
            simp only at this
            exact hnc this
          rw [List.takeWhile_append, if_neg hblock]
          simp only [applyDevs, applyChans_eq, hall, List.all_cons, Bool.false_and]

theorem applyAll_eq (ok : Nat → String → Bool) (n : Nat) (duty : Int) :
    applyAll ok n duty
      = ((writeSeq n duty).takeWhile (fun e => ok e.1 e.2.1),
         (writeSeq n duty).all (fun e => ok e.1 e.2.1)) := by
  rw [applyAll, applyDevs_eq, writeSeq]
  congr 1
  simp only [List.all_flatMap, List.all_map]
  rfl

/-- C4: actuation issues the same duty to every channel of every device in
order (devices outer, channels inner); the successful writes are exactly
the prefix of that sequence up to the first failure, a failure turns the
whole cycle into a fatal `deviceErr` with no rollback of the prefix, and a
fully successful actuation continues the loop having written the whole
sequence. -/
theorem c4_actuation_order_first_failure :
    (∀ (ok : Nat → String → Bool) (n : Nat) (duty : Int),
        applyAll ok n duty
          = ((writeSeq n duty).takeWhile (fun e => ok e.1 e.2.1),
             (writeSeq n duty).all (fun e => ok e.1 e.2.1)))
    ∧ (∀ (cfg : LoopCfg) (inp : CycleInput) (st : BufState) (line : String)
        (v temp : FVal) (duty : Int),
        inp.trigger = true → inp.readLine = some line →
        parseF64 (trimChars line.data) = some v →
        smoothMax (pushTemp v st).buf = some temp →
        getDuty cfg.curve (f64AsI16 (mul100 temp)) = some duty →
        cycleBody cfg inp st =
          if (writeSeq cfg.nDevs duty).all (fun e => inp.writeOk e.1 e.2.1) then
            .next (pushTemp v st) (writeSeq cfg.nDevs duty)
          else
            .retErr .deviceErr
              ((writeSeq cfg.nDevs duty).takeWhile (fun e => inp.writeOk e.1 e.2.1))) := by
  refine ⟨applyAll_eq, fun cfg inp st line v temp duty ht hl hp hm hd => ?_⟩
  have hbody : cycleBody cfg inp st = afterPush cfg inp.writeOk (pushTemp v st) := by
    simp [cycleBody, ht, hl, hp]
  rw [hbody]
  simp only [afterPush, hm, hd, applyAll_eq]
  cases hall : (writeSeq cfg.nDevs duty).all (fun e => inp.writeOk e.1 e.2.1) with
  | true =>
      have := takeWhile_eq_self_of_all (List.all_eq_true.1 hall)
      simp [hall, this]
  | false => simp [hall]

theorem c4_actuation_order_first_failure_witness :
    cycleBody ⟨[(0, 20)], 2⟩ ⟨true, some "inf", fun d _ => decide (d = 0)⟩ initBuf
      = .retErr .deviceErr [(0, "CPUF", 20), (0, "INTF", 20)] := by
  have h := c4_actuation_order_first_failure.2 ⟨[(0, 20)], 2⟩
    ⟨true, some "inf", fun d _ => decide (d = 0)⟩ initBuf "inf" .posInf .posInf 20
    (by decide) (by decide) (by decide) (by decide) (by decide)
  rw [h]
  decide

theorem fpcmp_isSome {a b : FVal} (ha : a ≠ .nan) (hb : b ≠ .nan) :
    (fpcmp a b).isSome := by
  cases a <;> cases b <;> (simp_all [fpcmp]; try (split_ifs <;> simp))

theorem maxByGo_total {xs : List FVal} :
    ∀ {acc : FVal}, acc ≠ .nan → (∀ x ∈ xs, x ≠ .nan) →
      ∃ w, maxByGo acc xs = some w := by
  induction xs with
  | nil => exact fun hacc _ => ⟨_, rfl⟩
  | cons x xs ih =>
      intro acc hacc hxs
      have hx : x ≠ .nan := hxs x (List.mem_cons_self x xs)
      obtain ⟨o, ho⟩ := Option.isSome_iff_exists.1 (fpcmp_isSome hx hacc)
      have htail : ∀ y ∈ xs, y ≠ FVal.nan := fun y hy => hxs y (List.mem_cons_of_mem x hy)
      cases o with
      | lt => simpa [maxByGo, ho] using ih hacc htail
      | eq => simpa [maxByGo, ho] using ih hx htail
      | gt => simpa [maxByGo, ho] using ih hx htail

theorem maxByGo_of_nan_mem {xs : List FVal} :
    ∀ {acc : FVal}, FVal.nan ∈ xs → maxByGo acc xs = none := by
  induction xs with
  | nil => intro acc h; cases h
  | cons x xs ih =>
      intro acc hmem
      rcases List.mem_cons.1 hmem with rfl | hmem
      · have : fpcmp FVal.nan acc = none := by cases acc <;> rfl
        simp [maxByGo, this]
      · cases hc : fpcmp x acc with
        | none => simp [maxByGo, hc]
        | some o => cases o <;> simp [maxByGo, hc, ih hmem]

theorem maxByGo_nan_acc {xs : List FVal} (h : xs ≠ []) :
    maxByGo .nan xs = none := by
  cases xs with
  | nil => exact absurd rfl h
  | cons x xs =>
      have : fpcmp x FVal.nan = none := by cases x <;> rfl
      simp [maxByGo, this]

/-- C8: the per-cycle maximum over the smoothing buffer is total (never
panics) as long as no slot holds NaN; but the parse step accepts the line
`NaN` as a valid `f64`, and once a NaN occupies any slot of a buffer with
at least two slots (the program's buffer always has three) the
`partial_cmp(..).unwrap()` fold panics — modelled by `none` — and the loop
step aborts as a panic rather than returning an error. -/
theorem c8_nan_panics_max :
    (∀ buf : List FVal, buf ≠ [] → (∀ v ∈ buf, v ≠ .nan) →
        ∃ w, smoothMax buf = some w)
    ∧ parseF64 (trimChars "NaN".data) = some .nan
    ∧ (∀ buf : List FVal, 2 ≤ buf.length → .nan ∈ buf → smoothMax buf = none)
    ∧ (∀ (cfg : LoopCfg) (oracle : Nat → String → Bool) (st' : BufState),
        smoothMax st'.buf = none → afterPush cfg oracle st' = .panicked []) := by
  refine ⟨?_, by decide, ?_, ?_⟩
  · intro buf hne hnn
    cases buf with
    | nil => exact absurd rfl hne
    | cons b bs =>
        exact maxByGo_total (hnn b (List.mem_cons_self b bs))
          (fun y hy => hnn y (List.mem_cons_of_mem b hy))
  · intro buf hlen hmem
    cases buf with
    | nil => cases hmem
    | cons b bs =>
        rcases List.mem_cons.1 hmem with rfl | hmem
        · have hbs : bs ≠ [] := by
            intro h
            rw [h] at hlen
            simp at hlen
          exact maxByGo_nan_acc hbs
        · exact maxByGo_of_nan_mem hmem
  · intro cfg oracle st' h
    simp [afterPush, h]

theorem c8_nan_panics_max_witness :
    (∃ w, smoothMax [.num 1, .num 0, .num 0] = some w)
      ∧ smoothMax [.nan, .num 0, .num 0] = none
      ∧ afterPush ⟨[], 0⟩ (fun _ _ => true) (pushTemp .nan initBuf) = .panicked [] :=
  ⟨c8_nan_panics_max.1 [.num 1, .num 0, .num 0] (by decide) (by decide),
   c8_nan_panics_max.2.2.1 [.nan, .num 0, .num 0] (by decide) (by decide),
   c8_nan_panics_max.2.2.2 ⟨[], 0⟩ (fun _ _ => true) (pushTemp .nan initBuf) (by decide)⟩

/-- C9: when the (vendor, version) pair read from SMBIOS has no registered
fan curve, startup fails with the unsupported-hardware error and its
effect trace is empty: no serial-port scan, no device open or reset, no
wrapper spawn, and the loop is never entered. -/
theorem c9_unsupported_hardware_stops_startup {env : StartEnv}
    (hs : env.smbiosOk = true)
    (hc : curveForModel (env.vendor.getD "") (env.version.getD "") = none) :
    driverStart env
      = ([], .error (.unsupportedHardware (env.vendor.getD "") (env.version.getD ""))) := by
  simp [driverStart, hs, hc]

theorem c9_unsupported_hardware_stops_startup_witness :
    driverStart ⟨true, some "Acme", some "board-1",
        some [⟨"COM3", .usbPort ⟨0x1209, 0x1776⟩, true, true⟩], true, true⟩
      = ([], .error (.unsupportedHardware "Acme" "board-1")) :=
  @c9_unsupported_hardware_stops_startup
    ⟨true, some "Acme", some "board-1",
      some [⟨"COM3", .usbPort ⟨0x1209, 0x1776⟩, true, true⟩], true, true⟩
    (by decide) (by decide)

theorem getDuty_foldl_of_all_gt {x : Int} {ps : List (Int × Int)}
    (h : ∀ p ∈ ps, x < p.1) (acc : Option Int) :
    ps.foldl (fun acc p => if p.1 ≤ x then some p.2 else acc) acc = acc := by
  induction ps generalizing acc with
  | nil => rfl
  | cons p ps ih =>
      rw [List.foldl_cons, if_neg (not_le.2 (h p (List.mem_cons_self p ps)))]
      exact ih (fun q hq => h q (List.mem_cons_of_mem p hq)) acc

theorem getDuty_append_single (ps : List (Int × Int)) (p : Int × Int) (x : Int) :
    getDuty (ps ++ [p]) x = if p.1 ≤ x then some p.2 else getDuty ps x := by
  simp [getDuty, List.foldl_append]

theorem pairwise_thresholds_inj {ps : List (Int × Int)}
    (hs : ps.Pairwise (fun p q => p.1 < q.1)) :
    ∀ p ∈ ps, ∀ q ∈ ps, p.1 = q.1 → p = q := by
  induction ps with
  | nil => intro p hp; cases hp
  | cons r t ih =>
      rw [List.pairwise_cons] at hs
      intro p hp q hq heq
      rcases List.mem_cons.1 hp with rfl | hp2
      · rcases List.mem_cons.1 hq with rfl | hq2
        · rfl
        · exact absurd heq (ne_of_lt (hs.1 q hq2))
      · rcases List.mem_cons.1 hq with rfl | hq2
        · exact absurd heq.symm (ne_of_lt (hs.1 p hp2))
        · exact ih hs.2 p hp2 q hq2 heq

theorem getDuty_greatest (x : Int) :
    ∀ ps : List (Int × Int), ps.Pairwise (fun p q => p.1 < q.1) →
      (∃ p ∈ ps, p.1 ≤ x) →
      ∃ p, p ∈ ps ∧ p.1 ≤ x ∧ (∀ q ∈ ps, q.1 ≤ x → q.1 ≤ p.1)
        ∧ getDuty ps x = some p.2 := by
  intro ps
  induction ps using List.reverseRecOn with
  | nil =>
      intro _ hex
      obtain ⟨p, hp, _⟩ := hex
      cases hp
  | append_singleton ps p ih =>
      intro hs hex
      rw [getDuty_append_single]
      by_cases hpx : p.1 ≤ x
      · rw [if_pos hpx]
        refine ⟨p, by simp, hpx, ?_, rfl⟩
        intro q hq hqx
        rcases List.mem_append.1 hq with hq | hq
        · exact ((List.pairwise_append.1 hs).2.2 q hq p (by simp)).le
        · rw [List.mem_singleton.1 hq]
      · rw [if_neg hpx]
        have hex' : ∃ q ∈ ps, q.1 ≤ x := by
          obtain ⟨r, hr, hrx⟩ := hex
          rcases List.mem_append.1 hr with h | h
          · exact ⟨r, h, hrx⟩
          · rw [List.mem_singleton.1 h] at hrx
            exact absurd hrx hpx
        obtain ⟨r, hr, hrx, hmax, hgd⟩ := ih (List.pairwise_append.1 hs).1 hex'
        refine ⟨r, List.mem_append_left _ hr, hrx, ?_, hgd⟩
        intro q hq hqx
        rcases List.mem_append.1 hq with h | h
        · exact hmax q h hqx
        · rw [List.mem_singleton.1 h] at hqx
          exact absurd hqx hpx

/-- C2: on a breakpoint table with sorted, unique thresholds, the lookup
is a step function: a temperature below the first threshold yields `none`,
a temperature at or above the first threshold yields the duty of the
greatest threshold not exceeding it, and a temperature exactly at a
breakpoint yields that breakpoint's duty. -/
theorem c2_curve_lookup_step (ps : List (Int × Int)) (x : Int)
    (hs : ps.Pairwise (fun p q => p.1 < q.1)) :
    (∀ p₀, ps.head? = some p₀ → x < p₀.1 → getDuty ps x = none)
    ∧ (∀ p₀, ps.head? = some p₀ → p₀.1 ≤ x →
        ∃ p, p ∈ ps ∧ p.1 ≤ x ∧ (∀ q ∈ ps, q.1 ≤ x → q.1 ≤ p.1)
          ∧ getDuty ps x = some p.2)
    ∧ (∀ p, p ∈ ps → p.1 = x → getDuty ps x = some p.2) := by
  refine ⟨?_, ?_, ?_⟩
  · intro p₀ hh hx
    cases ps with
    | nil => rfl
    | cons r t =>
        cases hh
        rw [List.pairwise_cons] at hs
        refine getDuty_foldl_of_all_gt ?_ none
        intro p hp
        rcases List.mem_cons.1 hp with rfl | hp
        · exact hx
        · exact hx.trans (hs.1 p hp)
  · intro p₀ hh hx
    cases ps with
    | nil => cases hh
    | cons r t =>
        cases hh
        exact getDuty_greatest x _ hs ⟨p₀, List.mem_cons_self p₀ t, hx⟩
  · intro p hp hpx
    obtain ⟨r, hr, hrx, hmax, hgd⟩ :=
      getDuty_greatest x ps hs ⟨p, hp, hpx.le⟩
    have hle : p.1 ≤ r.1 := hmax p hp hpx.le
    have hge : r.1 ≤ p.1 := hpx ▸ hrx
    have : r = p := pairwise_thresholds_inj hs r hr p hp (le_antisymm hge hle)
    rw [hgd, this]

theorem c2_curve_lookup_step_witness :
    getDuty [(4000, 20), (6000, 50), (8000, 100)] 3000 = none
      ∧ getDuty [(4000, 20), (6000, 50), (8000, 100)] 6000 = some 50 :=
  ⟨(c2_curve_lookup_step [(4000, 20), (6000, 50), (8000, 100)] 3000 (by decide)).1
      (4000, 20) (by decide) (by decide),
   (c2_curve_lookup_step [(4000, 20), (6000, 50), (8000, 100)] 6000 (by decide)).2.2
      (6000, 50) (by decide) (by decide)⟩

theorem toLower_of_isDigit {c : Char} (h : c.isDigit = true) : c.toLower = c := by
  simp only [Char.isDigit, Bool.and_eq_true, decide_eq_true_eq] at h
  obtain ⟨h1, h2⟩ := h
  have h3 : c.toNat ≤ 57 := UInt32.toNat_le_of_le (by norm_num [UInt32.size]) h2
  rw [Char.toLower, if_neg]
  omega

theorem spanDigits_append (cs : List Char) :
    (spanDigits cs).1 ++ (spanDigits cs).2 = cs := by
  induction cs with
  | nil => rfl
  | cons c cs ih =>
      rcases hsd : spanDigits cs with ⟨ds, rest⟩
      rw [hsd] at ih
      by_cases h : c.isDigit
      · simp [spanDigits, h, hsd, ih]
      · simp [spanDigits, h]

theorem spanDigits_digits (cs : List Char) :
    ∀ c ∈ (spanDigits cs).1, c.isDigit = true := by
  induction cs with
  | nil => intro c hc; cases hc
  | cons c cs ih =>
      rcases hsd : spanDigits cs with ⟨ds, rest⟩
      rw [hsd] at ih
      by_cases h : c.isDigit
      · simp only [spanDigits, h, if_pos, hsd]
        intro d hd
        rcases List.mem_cons.1 hd with rfl | hd2
        · exact h
        · exact ih d hd2
      · simp [spanDigits, h]

theorem stripSign_of_head_digit {c : Char} {cs : List Char} (h : c.isDigit = true) :
    stripSign (c :: cs) = (false, c :: cs) := by
  have h1 : c ≠ '+' := fun e => by rw [e] at h; exact absurd h (by decide)
  have h2 : c ≠ '-' := fun e => by rw [e] at h; exact absurd h (by decide)
  unfold stripSign
  split
  · rename_i t heq
    injection heq with ha hb
    exact absurd ha h1
  · rename_i t heq
    injection heq with ha hb
    exact absurd ha h2
  · rfl

theorem parseF64_eq_parseNumber {d : Char} {rest : List Char} (hd : d.isDigit = true) :
    parseF64 (d :: rest) = (parseNumber (d :: rest)).map fun q => FVal.num q := by
  have hinf : ¬((d :: rest).map Char.toLower = "inf".data
      ∨ (d :: rest).map Char.toLower = "infinity".data) := by
    rintro (he | he)
    · rw [List.map_cons, toLower_of_isDigit hd,
        show "inf".data = 'i' :: ['n', 'f'] from rfl] at he
      injection he with ha hb
      rw [ha] at hd
      exact absurd hd (by decide)
    · rw [List.map_cons, toLower_of_isDigit hd,
        show "infinity".data = 'i' :: ['n', 'f', 'i', 'n', 'i', 't', 'y'] from rfl] at he
      injection he with ha hb
      rw [ha] at hd
      exact absurd hd (by decide)
  have hnan : ¬ (d :: rest).map Char.toLower = "nan".data := by
    intro he
    rw [List.map_cons, toLower_of_isDigit hd,
      show "nan".data = 'n' :: ['a', 'n'] from rfl] at he
    injection he with ha hb
    rw [ha] at hd
    exact absurd hd (by decide)
  simp only [parseF64, stripSign_of_head_digit hd]
  rw [if_neg (by simp), if_neg hinf, if_neg hnan]
  simp

theorem parseNumber_of_spanDigits_nil {cs ds : List Char}
    (heq : spanDigits cs = (ds, [])) (hne : ds ≠ []) :
    ∃ q : ℚ, parseNumber cs = some q := by
  simp only [parseNumber, heq]
  simp [hne, parseExp]

theorem parseNumber_of_spanDigits_dot {cs t fs ds : List Char}
    (heq : spanDigits cs = (ds, '.' :: t)) (heq2 : spanDigits t = (fs, []))
    (hne : ds ≠ []) :
    ∃ q : ℚ, parseNumber cs = some q := by
  simp only [parseNumber, heq, heq2]
  simp [hne, parseExp]

theorem parseF64_decimal_ok (cs : List Char) (h : isDecimalLine cs = true) :
    ∃ q : ℚ, parseF64 cs = some (.num q) := by
  unfold isDecimalLine at h
  split at h
  · rename_i ds heq
    rw [decide_eq_true_eq] at h
    have happ := spanDigits_append cs
    rw [heq] at happ
    simp only [List.append_nil] at happ
    cases ds with
    | nil => exact absurd rfl h
    | cons d ds2 =>
        have hd : d.isDigit = true := by
          apply spanDigits_digits cs
          rw [heq]
          exact List.mem_cons_self d ds2
        obtain ⟨q, hq⟩ := parseNumber_of_spanDigits_nil heq h
        refine ⟨q, ?_⟩
        rw [← happ, parseF64_eq_parseNumber hd, happ, hq]
        rfl
  · rename_i ds t heq
    split at h
    · rename_i fs heq2
      rw [decide_eq_true_eq] at h
      obtain ⟨hds, hfs⟩ := h
      have happ := spanDigits_append cs
      rw [heq] at happ
      cases ds with
      | nil => exact absurd rfl hds
      | cons d ds2 =>
          have hd : d.isDigit = true := by
            apply spanDigits_digits cs
            rw [heq]
            exact List.mem_cons_self d ds2
          obtain ⟨q, hq⟩ := parseNumber_of_spanDigits_dot heq heq2 hds
          refine ⟨q, ?_⟩
          rw [← happ, List.cons_append, parseF64_eq_parseNumber hd,
            ← List.cons_append, happ, hq]
          rfl
    · cases h
  · cases h

/-- C7 (amended): every line whose parse as an `f64` fails is mapped to an
`InvalidData` error that is fatal for the cycle, and a line holding a
plain decimal number (digits, optionally a fractional part) always parses
successfully — but the `f64` grammar also accepts non-decimal forms such
as `NaN`, `inf` and exponent notation, so not every non-decimal line
produces a parse error. -/
theorem c7_parse_error_amended :
    (∀ cs : List Char, isDecimalLine cs = true → ∃ q : ℚ, parseF64 cs = some (.num q))
    ∧ (∀ (cfg : LoopCfg) (inp : CycleInput) (st : BufState) (line : String),
        inp.trigger = true → inp.readLine = some line →
        parseF64 (trimChars line.data) = none →
        cycleBody cfg inp st = .retErr .invalidData []) :=
  ⟨parseF64_decimal_ok, fun _ _ st _ ht hl hp => cycleBody_parse_fail st ht hl hp⟩

/-- C7 counterexample: the line `NaN` is not a decimal number, yet the
temperature read does not fail with a parse error — the parse succeeds
(producing NaN) and the cycle goes on to panic at the max fold instead. -/
theorem c7_parse_error_counterexample :
    isDecimalLine (trimChars "NaN".data) = false
      ∧ parseF64 (trimChars "NaN".data) = some .nan
      ∧ cycleBody ⟨[], 0⟩ ⟨true, some "NaN", fun _ _ => true⟩ initBuf
          = .panicked [] :=
  ⟨by decide, by decide, by decide⟩

theorem c7_parse_error_amended_witness :
    (∃ q : ℚ, parseF64 "42.5".data = some (.num q))
      ∧ cycleBody ⟨[], 0⟩ ⟨true, some "abc", fun _ _ => true⟩ initBuf
          = .retErr .invalidData [] :=
  ⟨c7_parse_error_amended.1 "42.5".data (by decide),
   c7_parse_error_amended.2 ⟨[], 0⟩ ⟨true, some "abc", fun _ _ => true⟩ initBuf "abc"
     (by decide) (by decide) (by decide)⟩

/-- On NaN-free numeric values the `max_by` fold computes the list
maximum. -/
theorem maxByGo_num (l : List ℚ) : ∀ a : ℚ,
    maxByGo (.num a) (l.map .num) = some (.num (l.foldl max a)) := by
  induction l with
  | nil => intro a; rfl
  | cons x l ih =>
      intro a
      rcases lt_trichotomy x a with h | h | h
      · have hc : fpcmp (.num x) (.num a) = some .lt := by
          simp [fpcmp, h]
        simp only [List.map_cons, maxByGo, hc, List.foldl_cons, ih,
          max_eq_left h.le]
      · subst h
        have hc : fpcmp (.num x) (.num x) = some .eq := by
          simp [fpcmp]
        simp only [List.map_cons, maxByGo, hc, List.foldl_cons, ih, max_self]
      · have hc : fpcmp (.num x) (.num a) = some .gt := by
          simp [fpcmp, not_lt.2 h.le, ne_of_gt h]
        simp only [List.map_cons, maxByGo, hc, List.foldl_cons, ih,
          max_eq_right h.le]

theorem smoothMax_num3 (a b c : ℚ) :
    smoothMax [.num a, .num b, .num c] = some (.num (max (max a b) c)) := by
  have := maxByGo_num [b, c] a
  simpa [smoothMax] using this

theorem length3_shape {α : Type} {l : List α} (h : l.length = 3) :
    ∃ u v w, l = [u, v, w] := by
  cases l with
  | nil => simp at h
  | cons u l1 =>
      cases l1 with
      | nil => simp at h
      | cons v l2 =>
          cases l2 with
          | nil => simp at h
          | cons w l3 =>
              cases l3 with
              | nil => exact ⟨u, v, w, rfl⟩
              | cons x l4 => simp at h

theorem pushAll_append (l1 l2 : List FVal) (st : BufState) :
    pushAll (l1 ++ l2) st = pushAll l2 (pushAll l1 st) := by
  simp [pushAll, List.foldl_append]

theorem pushAll_buf_length (vs : List FVal) : ∀ st : BufState,
    (pushAll vs st).buf.length = st.buf.length := by
  induction vs with
  | nil => intro st; rfl
  | cons v vs ih =>
      intro st
      rw [pushAll, List.foldl_cons]
      exact ((ih (pushTemp v st)).trans (pushTemp_buf_length v st))

theorem pushAll_idx_lt (vs : List FVal) : ∀ st : BufState,
    st.idx < pointsInSpinDown → (pushAll vs st).idx < pointsInSpinDown := by
  induction vs with
  | nil => intro st h; exact h
  | cons v vs ih =>
      intro st _
      rw [pushAll, List.foldl_cons]
      exact ih (pushTemp v st) (pushTemp_idx_lt v st)

/-- Pushing exactly three samples into a full three-slot buffer overwrites
every slot once; the smoothed maximum afterwards is the maximum of the
three pushed samples, whatever the starting cursor. -/
theorem smoothMax_pushAll3 (x y z : ℚ) (u v w : FVal) :
    ∀ i : Nat, i < 3 →
      smoothMax (pushAll [.num x, .num y, .num z] ⟨[u, v, w], i⟩).buf
        = some (.num (max (max x y) z)) := by
  intro i hi
  interval_cases i
  · have hst : pushAll [.num x, .num y, .num z] ⟨[u, v, w], 0⟩
        = ⟨[.num x, .num y, .num z], 0⟩ := by
      simp [pushAll, pushTemp, points_eq]
    rw [hst, smoothMax_num3]
  · have hst : pushAll [.num x, .num y, .num z] ⟨[u, v, w], 1⟩
        = ⟨[.num z, .num x, .num y], 1⟩ := by
      simp [pushAll, pushTemp, points_eq]
    rw [hst, smoothMax_num3]
    have : max (max z x) y = max (max x y) z := by
      simp [max_comm, max_assoc, max_left_comm]
    rw [this]
  · have hst : pushAll [.num x, .num y, .num z] ⟨[u, v, w], 2⟩
        = ⟨[.num y, .num z, .num x], 2⟩ := by
      simp [pushAll, pushTemp, points_eq]
    rw [hst, smoothMax_num3]
    have : max (max y z) x = max (max x y) z := by
      simp [max_comm, max_assoc, max_left_comm]
    rw [this]

theorem qmax_iff (l : List ℚ) (m : ℚ) :
    l.max? = some m ↔ m ∈ l ∧ ∀ b ∈ l, b ≤ m :=
  @List.max?_eq_some_iff ℚ m _ _ ⟨fun h h2 => le_antisymm h h2⟩
    le_refl max_choice (fun _ _ _ => max_le_iff) l

theorem max?_perm {l1 l2 : List ℚ} (h : l1.Perm l2) : l1.max? = l2.max? := by
  cases hl : l1.max? with
  | none =>
      rw [List.max?_eq_none_iff] at hl
      subst hl
      rw [List.max?_eq_none_iff.2 h.symm.eq_nil]
  | some m =>
      rw [qmax_iff] at hl
      exact ((qmax_iff l2 m).2
        ⟨h.subset hl.1, fun b hb => hl.2 b (h.symm.subset hb)⟩).symm

/-- Sliding-window law at the program's capacity 3: once at least three
samples have been pushed, the smoothed value is the maximum of exactly the
last three pushed samples. -/
theorem slide_smoothMax (qs : List ℚ) (h : 3 ≤ qs.length) :
    smoothMax (pushAll (qs.map .num) initBuf).buf
      = ((qs.drop (qs.length - 3)).max?).map FVal.num := by
  have hlen : (qs.drop (qs.length - 3)).length = 3 := by
    rw [List.length_drop]
    omega
  obtain ⟨x, y, z, hdrop⟩ := length3_shape hlen
  have hsplit : qs.take (qs.length - 3) ++ qs.drop (qs.length - 3) = qs :=
    List.take_append_drop _ _
  conv_lhs =>
    rw [show qs = qs.take (qs.length - 3) ++ qs.drop (qs.length - 3) from hsplit.symm]
  rw [List.map_append, pushAll_append, hdrop]
  rcases hmid : pushAll ((qs.take (qs.length - 3)).map .num) initBuf with ⟨mbuf, mi⟩
  have hmlen : mbuf.length = 3 := by
    have hl := pushAll_buf_length ((qs.take (qs.length - 3)).map .num) initBuf
    rw [hmid] at hl
    simpa [initBuf, points_eq] using hl
  have hmi : mi < 3 := by
    have hl := pushAll_idx_lt ((qs.take (qs.length - 3)).map .num) initBuf
      (by simp [initBuf, points_eq])
    rw [hmid, points_eq] at hl
    exact hl
  obtain ⟨u, v, w, hbuf⟩ := length3_shape hmlen
  subst hbuf
  rw [List.map_cons, List.map_cons, List.map_cons, List.map_nil,
    smoothMax_pushAll3 x y z u v w mi hmi]
  rfl

/-- Cold-start law at capacity 3: with fewer than three samples pushed,
the smoothed value is the maximum of the pushed samples together with the
zeros still filling the remaining slots. -/
theorem cold_smoothMax (qs : List ℚ) (h : qs.length < 3) :
    smoothMax (pushAll (qs.map .num) initBuf).buf
      = ((qs ++ List.replicate (3 - qs.length) 0).max?).map FVal.num := by
  rcases qs with _ | ⟨a, _ | ⟨b, _ | ⟨c, rest⟩⟩⟩
  · decide
  · have hst : pushAll [.num a] initBuf = ⟨[.num a, .num 0, .num 0], 1⟩ := by
      simp [pushAll, pushTemp, initBuf, points_eq, List.replicate]
    rw [List.map_cons, List.map_nil, hst, smoothMax_num3,
      show (([a] ++ List.replicate (3 - [a].length) 0) : List ℚ) = [a, 0, 0] from by
        simp [List.replicate],
      show ([a, 0, 0] : List ℚ).max? = some (max (max a 0) 0) from rfl]
    rfl
  · have hst : pushAll [.num a, .num b] initBuf
        = ⟨[.num a, .num b, .num 0], 2⟩ := by
      simp [pushAll, pushTemp, initBuf, points_eq, List.replicate]
    rw [List.map_cons, List.map_cons, List.map_nil, hst, smoothMax_num3,
      show (([a, b] ++ List.replicate (3 - [a, b].length) 0) : List ℚ) = [a, b, 0] from by
        simp [List.replicate],
      show ([a, b, 0] : List ℚ).max? = some (max (max a b) 0) from rfl]
    rfl
  · exfalso
    simp [List.length_cons] at h
    omega

/-- C1: smoothing-buffer law.  Pushing fewer than capacity samples from
the zero-initialized buffer makes the current smoothed value the maximum
of the pushed samples together with the zeros of the unfilled slots
(cold-start law); pushing at least capacity samples makes it the maximum
of exactly the last capacity pushed samples (sliding-window law), hence
invariant under reordering those samples; and pushing `[10, 90, 10, 10]`
into the capacity-3 buffer keeps the current value at 90 for the two
cycles after the 90 was pushed, dropping once 90 leaves the window. -/
theorem c1_smoothing_buffer_law (qs : List ℚ) :
    (qs.length < pointsInSpinDown →
      smoothMax (pushAll (qs.map FVal.num) initBuf).buf
        = ((qs ++ List.replicate (pointsInSpinDown - qs.length) 0).max?).map FVal.num)
    ∧ (pointsInSpinDown ≤ qs.length →
      smoothMax (pushAll (qs.map FVal.num) initBuf).buf
        = ((qs.drop (qs.length - pointsInSpinDown)).max?).map FVal.num)
    ∧ (∀ qs2 : List ℚ, pointsInSpinDown ≤ qs.length → pointsInSpinDown ≤ qs2.length →
        (qs.drop (qs.length - pointsInSpinDown)).Perm
          (qs2.drop (qs2.length - pointsInSpinDown)) →
        smoothMax (pushAll (qs.map FVal.num) initBuf).buf
          = smoothMax (pushAll (qs2.map FVal.num) initBuf).buf)
    ∧ (smoothMax (pushAll ([10, 90, 10].map FVal.num) initBuf).buf = some (.num 90)
      ∧ smoothMax (pushAll ([10, 90, 10, 10].map FVal.num) initBuf).buf = some (.num 90)
      ∧ smoothMax (pushAll ([10, 90, 10, 10, 10].map FVal.num) initBuf).buf
          = some (.num 10)) := by
  rw [points_eq]
  refine ⟨cold_smoothMax qs, slide_smoothMax qs, ?_, by decide, by decide, by decide⟩
  intro qs2 h1 h2 hperm
  rw [slide_smoothMax qs h1, slide_smoothMax qs2 h2, max?_perm hperm]

theorem c1_smoothing_buffer_law_witness :
    (smoothMax (pushAll (([5, 7] : List ℚ).map FVal.num) initBuf).buf
        = ((([5, 7] : List ℚ)
            ++ List.replicate (pointsInSpinDown - ([5, 7] : List ℚ).length) 0).max?).map
            FVal.num)
    ∧ (smoothMax (pushAll (([1, 2, 9, 4] : List ℚ).map FVal.num) initBuf).buf
        = ((([1, 2, 9, 4] : List ℚ).drop
            (([1, 2, 9, 4] : List ℚ).length - pointsInSpinDown)).max?).map FVal.num) :=
  ⟨(c1_smoothing_buffer_law [5, 7]).1 (by decide),
   (c1_smoothing_buffer_law [1, 2, 9, 4]).2.1 (by decide)⟩
